import Mathlib

/-!
Verification of the JTL parser (`src/lib.go` of OrtheSnowJames/jtl).

Go strings are modelled as `List Char` (the documents in question are
ASCII, so byte indexing and rune indexing agree).  Every helper below is a
direct translation of the `strings` package function the source calls,
restricted to the arguments the source uses.  `Parse`, `ParseEnv`,
`parseElement` and `countIndentation` keep their Go names.

Go's `map[string]string` / `map[string]interface{}` are modelled as
association lists updated by `upsert` (assignment overwrites, lookup is by
key); the parser never iterates over a map, so this is observationally
faithful.  The element maps produced by `parseElement` carry their string
fields in an association list; the `children` entry that `Parse` mutates
through a map pointer is modelled as a separate `kids` component, and the
in-place mutation `parent["children"] = append(...)` is modelled by
re-attaching at the recorded path of the parent inside the forest built so
far (paths stay valid because the parser only ever appends children).
-/

abbrev Str := List Char

/-- Go `unicode.IsSpace` restricted to the Latin-1 range (space, \t, \n,
\v, \f, \r, NEL, NBSP); the documents in the claims are ASCII. -/
def goIsSpace (c : Char) : Bool :=
  c = ' ' || c = '\t' || c = '\n' || c = Char.ofNat 11 || c = Char.ofNat 12 ||
  c = '\r' || c = Char.ofNat 133 || c = Char.ofNat 160

/-- Go `strings.TrimSpace`. -/
def trimSpace (l : Str) : Str :=
  ((l.dropWhile goIsSpace).reverse.dropWhile goIsSpace).reverse

/-- Go `strings.TrimRight(l, " \t")`. -/
def trimRightST (l : Str) : Str :=
  (l.reverse.dropWhile (fun c => c = ' ' || c = '\t')).reverse

/-- Go `strings.HasPrefix(l, p)` (first argument is the pattern). -/
def startsWithL : Str → Str → Bool
  | [], _ => true
  | _ :: _, [] => false
  | p :: ps, c :: cs => p = c && startsWithL ps cs

/-- Go `strings.HasSuffix(l, s)` (first argument is the pattern). -/
def endsWithL (s l : Str) : Bool :=
  startsWithL s.reverse l.reverse

/-- Go `strings.TrimPrefix(l, p)` (first argument is the pattern). -/
def trimPre (p l : Str) : Str :=
  if startsWithL p l then l.drop p.length else l

/-- Go `strings.TrimSuffix(l, s)` (first argument is the pattern). -/
def trimSuf (s l : Str) : Str :=
  if endsWithL s l then l.take (l.length - s.length) else l

/-- Go `strings.Contains(l, sub)` (first argument is the pattern). -/
def containsSub (sub : Str) : Str → Bool
  | [] => sub.isEmpty
  | c :: rest => startsWithL sub (c :: rest) || containsSub sub rest

/-- Go `strings.Index(l, string(c))` for a one-character separator. -/
def idxOf (c : Char) : Str → Option Nat
  | [] => none
  | x :: xs => if x = c then some 0 else (idxOf c xs).map (· + 1)

/-- Go `strings.Split(l, string(sep))` for a one-character separator. -/
def splitChar (sep : Char) : Str → List Str
  | [] => [[]]
  | c :: rest =>
    let r := splitChar sep rest
    if c = sep then [] :: r
    else
      match r with
      | [] => [[c]]
      | h :: t => (c :: h) :: t

/-- Go `strings.SplitN(l, "=", 2)`: `some (before, after)` when the
separator occurs, `none` when it does not (Go then returns `[l]`). -/
def splitFirst (sep : Char) : Str → Option (Str × Str)
  | [] => none
  | x :: xs =>
    if x = sep then some ([], xs)
    else (splitFirst sep xs).map (fun p => (x :: p.1, p.2))

/-- Map assignment `m[k] = v` on the association-list model of a Go map. -/
def upsert (k v : Str) : List (Str × Str) → List (Str × Str)
  | [] => [(k, v)]
  | (k', v') :: rest => if k' = k then (k, v) :: rest else (k', v') :: upsert k v rest

/-- Map lookup `m[k]` on the association-list model of a Go map. -/
def lookupS (k : Str) : List (Str × Str) → Option Str
  | [] => none
  | (k', v) :: rest => if k' = k then some v else lookupS k rest

abbrev EnvT := List (Str × Str)

/-- `countIndentation` from `src/lib.go`:
`len(line) - len(strings.TrimLeft(line, " \t"))`. -/
def countIndentation (l : Str) : Nat :=
  (l.takeWhile (fun c => c = ' ' || c = '\t')).length

/-- One element of the parsed output: the flat string map built by
`parseElement` plus the `children` entry `Parse` appends to. -/
inductive Elem : Type where
  | mk : List (Str × Str) → List Elem → Elem

def Elem.fields : Elem → List (Str × Str)
  | .mk f _ => f

def Elem.kids : Elem → List Elem
  | .mk _ k => k

/-- Character class of Go's regexp `\w` ([0-9A-Za-z_]). -/
def isWordChar (c : Char) : Bool :=
  c.isAlpha || c.isDigit || c = '_'

/-- One attempt of Go's regexp `(\w+)="([^"]+)"` at the start of `l`:
a maximal nonempty run of word characters, the literal two characters
equals-quote, a maximal nonempty run of non-quote characters, a closing
quote.  Returns the two capture groups and the rest of the input.  (For
this pattern greedy matching never backtracks: the `\w+` run is delimited
by the non-word character `=`, and the `[^"]+` run by the closing quote.) -/
def tryAttr (l : Str) : Option (Str × Str × Str) :=
  let name := l.takeWhile isWordChar
  if name = [] then none
  else
    match l.drop name.length with
    | '=' :: '\"' :: rest =>
      let v := rest.takeWhile (fun c => c ≠ '\"')
      if v = [] then none
      else
        match rest.drop v.length with
        | '\"' :: rem => some (name, v, rem)
        | _ => none
    | _ => none

/-- Scan for all non-overlapping leftmost matches, with explicit fuel
(one unit per inspected start position; `scanAttrs` supplies enough). -/
def scanAttrsF : Nat → Str → List (Str × Str)
  | 0, _ => []
  | _, [] => []
  | fuel + 1, c :: rest =>
    match tryAttr (c :: rest) with
    | some (n, v, rem) => (n, v) :: scanAttrsF fuel rem
    | none => scanAttrsF fuel rest

/-- Go `attrRegex.FindAllStringSubmatch(l, -1)` for the pattern
`(\w+)="([^"]+)"`, as the list of (identifier, value) capture pairs. -/
def scanAttrs (l : Str) : List (Str × Str) :=
  scanAttrsF l.length l

def doctypeMark : Str := "DOCTYPE=JTL".toList
def envMarker : Str := ">>>ENV;".toList
def beginMarker : Str := ">>>BEGIN;".toList
def endMarker : Str := ">>>END;".toList
def tripleMark : Str := ">>>".toList
def commentOpen : Str := "/*".toList
def commentClose : Str := "*/".toList
def lineComment : Str := ">//>".toList
def envTok : Str := "$env:".toList
def keyK : Str := "KEY".toList
def contentK : Str := "Content".toList
def contentsK : Str := "Contents".toList
def doctypeMsg : Str := "invalid JTL document: missing DOCTYPE".toList
def sep1Msg : Str := "invalid element format: missing first separator".toList
def sep2Msg : Str := "invalid element format: missing second separator".toList
def keyMsg : Str := "invalid element format: empty element id".toList
def attrMsg : Str := "invalid element format: no attributes found".toList

/-- One step of the minimum-indentation loop of `parseElement`
(`src/lib.go` lines 144-153; Go's `-1` start is modelled as `none`;
blank sub-lines are skipped). -/
def minStep (acc : Option Nat) (line : Str) : Option Nat :=
  if trimSpace line = [] then acc
  else
    let ind := countIndentation line
    match acc with
    | none => some ind
    | some m => some (if ind < m then ind else m)

/-- The minimum-indentation fold of `parseElement`. -/
def minIndentOf (lines : List Str) : Option Nat :=
  lines.foldl minStep none

/-- `strings.Join(ls, "\n")`. -/
def joinNL : List Str → Str
  | [] => []
  | [x] => x
  | x :: xs => x ++ '\n' :: joinNL xs

/-- The multi-line branch of `parseElement`'s content handling
(`src/lib.go` lines 141-167): compute the minimum indentation over
non-blank sub-lines, skip blank sub-lines, strip the common indentation
(guarded exactly as in the source), right-trim each kept sub-line, rejoin
and trim the result. -/
def normalizeMulti (c : Str) : Str :=
  let lines := splitChar '\n' c
  let mI : Nat := (minIndentOf lines).getD 0
  let processed := lines.filterMap
    (fun line =>
      if trimSpace line = [] then none
      else some (trimRightST (if 0 < mI ∧ mI ≤ line.length then line.drop mI else line)))
  trimSpace (joinNL processed)

/-- Content handling of `parseElement` (`src/lib.go` lines 140-170). -/
def contentNormalize (c : Str) : Str :=
  if containsSub ['\n'] c then normalizeMulti c else trimSpace c

/-- Environment substitution of `parseElement` (`src/lib.go` lines
177-183). -/
def substEnv (c : Str) (env : EnvT) : Str :=
  if c ≠ [] ∧ startsWithL envTok c then
    match lookupS (trimSpace (trimPre envTok c)) env with
    | some v => v
    | none => c
  else c

/-- The two-separator split of `parseElement` (`src/lib.go` lines
120-138): strip the leading `>` and the trailing `;`, split at the first
`>` into attribute text and remainder, split the remainder at the next `>`
into the trimmed key and the raw content. -/
def elemParts (elementText : Str) : Except Str (Str × Str × Str) :=
  let t1 := trimPre ['>'] elementText
  let t2 := trimSuf [';'] (trimSpace t1)
  match idxOf '>' t2 with
  | none => .error sep1Msg
  | some i =>
    let attributesPart := t2.take i
    let remainder := t2.drop (i + 1)
    match idxOf '>' remainder with
    | none => .error sep2Msg
    | some j => .ok (attributesPart, trimSpace (remainder.take j), remainder.drop (j + 1))

/-- A sequence of map assignments (the shape of both the attribute loop
of `parseElement` and the declaration writes of `ParseEnv`). -/
def foldUpsert (m : List (Str × Str)) (ps : List (Str × Str)) : List (Str × Str) :=
  ps.foldl (fun acc p => upsert p.1 p.2 acc) m

/-- `parseElement` from `src/lib.go` (lines 119-201).  The id check
precedes the attribute check exactly as in the source; content
normalization and environment substitution cannot fail. -/
def parseElement (elementText : Str) (env : EnvT) : Except Str Elem :=
  match elemParts elementText with
  | .error e => .error e
  | .ok (attributesPart, id, rawContent) =>
    let content := substEnv (contentNormalize rawContent) env
    if id = [] then .error keyMsg
    else
      let ms := scanAttrs attributesPart
      if ms = [] then .error attrMsg
      else
        .ok (Elem.mk (upsert contentsK content
              (upsert contentK content (upsert keyK id (foldUpsert [] ms)))) [])

/-- The multi-line span accumulator of `Parse` (`src/lib.go` lines
74-81): append raw following lines until one whose trimmed form ends with
`;`; report the remaining lines after the terminator, or `none` when the
input runs out (Go then leaves the loop index unchanged). -/
def collectAux (acc : Str) : List Str → Str × Option (List Str)
  | [] => (acc, none)
  | l :: ls =>
    let acc' := acc ++ '\n' :: l
    if endsWithL [';'] (trimSpace l) then (acc', some ls)
    else collectAux acc' ls

/-- Element-span collection of `Parse` (`src/lib.go` lines 71-82).
`first` is the trimmed element line; returns the accumulated span and the
lines the outer loop continues with.  When the terminator search runs off
the end of the document, Go does not advance the loop index, so the
continuation is `rest` itself. -/
def collectSpan (first : Str) (rest : List Str) : Str × List Str :=
  if endsWithL [';'] first then (first, rest)
  else
    match collectAux first rest with
    | (full, some remaining) => (full, remaining)
    | (full, none) => (full, rest)

/-- Replace the element at one index of a sibling list. -/
def modifyIdx (f : Elem → Elem) : Nat → List Elem → List Elem
  | _, [] => []
  | 0, x :: xs => f x :: xs
  | n + 1, x :: xs => x :: modifyIdx f n xs

/-- Append a new child to the element a path designates (`[]` appends at
the root level).  This models Go's in-place
`parent["children"] = append(parent["children"], element)` through the
map pointer stored on the stack. -/
def attachPath : List Nat → List Elem → Elem → List Elem
  | [], forest, e => forest ++ [e]
  | i :: rest, forest, e =>
    modifyIdx (fun el => Elem.mk el.fields (attachPath rest el.kids e)) i forest

/-- The element a path designates, if any. -/
def getAt : List Nat → List Elem → Option Elem
  | [], _ => none
  | [i], forest => forest.get? i
  | i :: rest, forest =>
    match forest.get? i with
    | some e => getAt rest e.kids
    | none => none

/-- Number of children already attached at a path (0 for a fresh map, as
`Parse` creates the `children` entry on first use). -/
def kidsCountAt (p : List Nat) (forest : List Elem) : Nat :=
  match getAt p forest with
  | some e => e.kids.length
  | none => 0

/-- A stack entry of `Parse`: the position of the pushed element inside
the forest built so far (standing for Go's map pointer) and its source
indentation. -/
abbrev StackE := List Nat × Nat

/-- The nesting step of `Parse` (`src/lib.go` lines 89-107): pop stack
entries with indentation `≥ indent` from the top, attach the new element
map `f` to the children of the new top (or at the root level), push the
new element with its indentation. -/
def nestStep (f : List (Str × Str)) (indent : Nat) :
    List Elem × List StackE → List Elem × List StackE
  | (forest, stack) =>
    let stack' := stack.dropWhile (fun s => decide (indent ≤ s.2))
    match stack' with
    | [] => (attachPath [] forest (Elem.mk f []), ([forest.length], indent) :: stack')
    | (p, m) :: rest =>
      (attachPath p forest (Elem.mk f []),
        (p ++ [kidsCountAt p forest], indent) :: (p, m) :: rest)

/-- One environment declaration segment (`src/lib.go` lines 56-64):
trim, require the `>>>` marker, split the rest at the first `=`, trim
name and value, assign; segments without `=` change nothing. -/
def procDecl (env : EnvT) (declRaw : Str) : EnvT :=
  let d := trimSpace declRaw
  if startsWithL tripleMark d then
    match splitFirst '=' (d.drop 3) with
    | some (n, v) => upsert (trimSpace n) (trimSpace v) env
    | none => env
  else env

/-- One environment line (`src/lib.go` lines 54-65): split at every `;`
and process each segment in order. -/
def processEnvLine (env : EnvT) (line : Str) : EnvT :=
  (splitChar ';' line).foldl procDecl env

/-- The line loop of `Parse` (`src/lib.go` lines 30-109), with fuel for
the index jumps of multi-line spans (`Parse` supplies `lines.length`,
which suffices because every step consumes at least the current line). -/
def goParse : Nat → List Str → Bool → Bool → EnvT → List Elem → List StackE →
    Except Str (List Elem)
  | 0, _, _, _, _, forest, _ => .ok forest
  | _ + 1, [], _, _, _, forest, _ => .ok forest
  | fuel + 1, raw :: rest, inBody, inEnv, env, forest, stack =>
    let indent := countIndentation raw
    let line := trimSpace raw
    if line = [] || startsWithL commentOpen line || startsWithL commentClose line ||
        startsWithL lineComment line then
      goParse fuel rest inBody inEnv env forest stack
    else if line = envMarker then goParse fuel rest inBody true env forest stack
    else if line = beginMarker then goParse fuel rest true false env forest stack
    else if line = endMarker then goParse fuel rest false inEnv env forest stack
    else if inEnv && startsWithL tripleMark line then
      goParse fuel rest inBody inEnv (processEnvLine env line) forest stack
    else if inBody && startsWithL ['>'] line then
      let span := collectSpan line rest
      match parseElement span.1 env with
      | .error e => .error e
      | .ok el =>
        let st' := nestStep el.fields indent (forest, stack)
        goParse fuel span.2 inBody inEnv env st'.1 st'.2
    else goParse fuel rest inBody inEnv env forest stack

/-- `Parse` from `src/lib.go` (lines 12-112). -/
def Parse (text : Str) : Except Str (List Elem) :=
  let lines := splitChar '\n' text
  match lines with
  | [] => .error doctypeMsg
  | l0 :: _ =>
    if containsSub doctypeMark l0 then goParse lines.length lines false false [] [] []
    else .error doctypeMsg

/-- The line loop of `ParseEnv` (`src/lib.go` lines 223-252): same
skipping and `>>>ENV;` handling as `Parse`, but `>>>BEGIN;` stops the
scan (`break envParsing`) and `>>>END;` is not special. -/
def goEnv : List Str → Bool → EnvT → EnvT
  | [], _, env => env
  | raw :: rest, inEnv, env =>
    let line := trimSpace raw
    if line = [] || startsWithL commentOpen line || startsWithL commentClose line ||
        startsWithL lineComment line then
      goEnv rest inEnv env
    else if line = envMarker then goEnv rest true env
    else if line = beginMarker then env
    else if inEnv && startsWithL tripleMark line then
      goEnv rest inEnv (processEnvLine env line)
    else goEnv rest inEnv env

/-- `ParseEnv` from `src/lib.go` (lines 213-255). -/
def ParseEnv (text : Str) : Except Str EnvT :=
  let lines := splitChar '\n' text
  match lines with
  | [] => .error doctypeMsg
  | l0 :: _ =>
    if containsSub doctypeMark l0 then .ok (goEnv lines false [])
    else .error doctypeMsg

/-! Specification-side definitions (used to state the claims), and the
concrete documents the claims are settled on. -/

/-- Readable construction of the `List Char` field maps. -/
def fieldsOf (ps : List (String × String)) : List (Str × Str) :=
  ps.map (fun p => (p.1.toList, p.2.toList))

/-- A leaf element literal. -/
def elemOf (ps : List (String × String)) : Elem :=
  Elem.mk (fieldsOf ps) []

/-- The last value declared for a key in a declaration sequence. -/
def lastAssoc (k : Str) : List (Str × Str) → Option Str
  | [] => none
  | (k', v) :: rest =>
    match lastAssoc k rest with
    | some w => some w
    | none => if k' = k then some v else none

/-- The (name, value) pair a declaration segment denotes, if any:
trimmed segment must carry the `>>>` marker and contain `=`; name and
value are trimmed (specification-side reading of `procDecl`). -/
def declOf (seg : Str) : Option (Str × Str) :=
  let d := trimSpace seg
  if startsWithL tripleMark d then
    (splitFirst '=' (d.drop 3)).map (fun p => (trimSpace p.1, trimSpace p.2))
  else none

/-- All declarations an environment line contributes, in order. -/
def lineDecls (line : Str) : List (Str × Str) :=
  (splitChar ';' line).filterMap declOf

/-- The declaration stream of a document's Env section in document
order, mirroring the control flow of `goEnv`. -/
def envDeclsFrom : List Str → Bool → List (Str × Str)
  | [], _ => []
  | raw :: rest, inEnv =>
    let line := trimSpace raw
    if line = [] || startsWithL commentOpen line || startsWithL commentClose line ||
        startsWithL lineComment line then
      envDeclsFrom rest inEnv
    else if line = envMarker then envDeclsFrom rest true
    else if line = beginMarker then []
    else if inEnv && startsWithL tripleMark line then
      lineDecls line ++ envDeclsFrom rest inEnv
    else envDeclsFrom rest inEnv

/-- The declaration stream of a whole document. -/
def envDecls (text : Str) : List (Str × Str) :=
  envDeclsFrom (splitChar '\n' text) false

/-- Blank line test (`strings.TrimSpace(line) == ""`). -/
def isBlankL (l : Str) : Bool :=
  decide (trimSpace l = [])

/-- Drop leading and trailing blank lines of a line list. -/
def trimBlankEnds (ls : List Str) : List Str :=
  ((ls.dropWhile isBlankL).reverse.dropWhile isBlankL).reverse

/-- Modelled from the wording of claim C4 (the specification's
multi-line content normalization): minimum leading-whitespace width over
non-blank sub-lines, strip exactly that many columns from every
sub-line, trim only trailing whitespace of each sub-line, rejoin, trim
only the overall leading/trailing blank lines — interior blank lines
preserved. -/
def claimNormalize (c : Str) : Str :=
  let lines := splitChar '\n' c
  let mI : Nat := (minIndentOf lines).getD 0
  joinNL (trimBlankEnds (lines.map (fun l => trimRightST (l.drop mI))))

/-- Claim C4 as amended to the source: blank sub-lines (interior ones
included) are removed entirely; the remaining sub-lines are de-indented
by the minimum indent over non-blank sub-lines, right-trimmed, rejoined,
and the result is trimmed of all surrounding whitespace. -/
def normalizeAmended (c : Str) : Str :=
  let lines := splitChar '\n' c
  let mI : Nat := (minIndentOf lines).getD 0
  trimSpace (joinNL ((lines.filter (fun l => !isBlankL l)).map
    (fun l => trimRightST (l.drop mI))))

/-- The nesting resolver run on a stream of (element map, indent) pairs
from the initial empty state, as `Parse` does for the body elements it
lexes. -/
def runNest (items : List (List (Str × Str) × Nat)) : List Elem :=
  (items.foldl (fun st it => nestStep it.1 it.2 st) ([], [])).1

/-- A single chain: each element has exactly one child, the last none
(depth = one more than the list length). -/
def chainOf : List (Str × Str) → List (List (Str × Str)) → Elem
  | f, [] => Elem.mk f []
  | f, g :: rest => Elem.mk f [chainOf g rest]

/-- A property of every element map of a forest, recursively. -/
inductive ElemAll (P : List (Str × Str) → Prop) : Elem → Prop where
  | intro : ∀ f ks, P f → (∀ k ∈ ks, ElemAll P k) → ElemAll P (Elem.mk f ks)

/-- The element invariant of claim C5: a non-empty key under `KEY`. -/
def keyP (f : List (Str × Str)) : Prop :=
  ∃ id, lookupS keyK f = some id ∧ id ≠ []

def c1doc : Str :=
  ">>>DOCTYPE=JTL;\n>>>BEGIN;\n>a=\"b\">k>[[\nx();\nstill inside\n]];\n>>>END;".toList

def c2doc : Str :=
  "\n>>>DOCTYPE=JTL;\n>>>BEGIN;\n>a=\"b\">k>x;\n>>>END;".toList

def c4doc : Str :=
  ">>>DOCTYPE=JTL;\n>>>BEGIN;\n>x=\"y\">k>a\n\nb;\n>>>END;".toList

def c5doc : Str :=
  ">>>DOCTYPE=JTL;\n>>>BEGIN;\n>foo> >x;\n>>>END;".toList

def c5span : Str :=
  ">foo> >x;".toList

def c8doc : Str :=
  ">>>DOCTYPE=JTL;\n>>>BEGIN;\n    >class=\"test\" tag=\"div\">id>;\n>>>END;".toList

def c9doc : Str :=
  ">>>DOCTYPE=JTL;\n>>>BEGIN;\n>a=\"b\">k1>x;\n>>>END;\n>>>BEGIN;\n>a=\"b\">k2>y;".toList

def c9short : Str :=
  ">>>DOCTYPE=JTL;\n>>>BEGIN;\n>a=\"b\">k1>x;\n>>>END;".toList

def c7doc : Str :=
  ">>>DOCTYPE=JTL;\n>>>ENV;\n>>>A=1; >>>A=2;\n>>> B = spaced value ;\nnope=9\n>>>BEGIN;\n>>>A=3;".toList

def c10span : Str :=
  ">KEY=\"zap\" a=\"b\">myid>c;".toList

def c3doc : Str :=
  ">>>DOCTYPE=JTL;\n>>>BEGIN;\n>a=\"1\">r>x;\n  >a=\"2\">s>y;\n      >a=\"3\">t>z;\n>>>END;".toList

/-- The element the span `c10span` parses to. -/
def c10elem : Elem :=
  elemOf [("KEY", "myid"), ("a", "b"), ("Content", "c"), ("Contents", "c")]

/-- The first physical line of a document (`lines[0]` after the
newline split; the split is never empty). -/
def firstLine (text : Str) : Str :=
  (splitChar '\n' text).headD []

/-! Helper lemmas. -/

theorem takeWhile_len_le (p : Char → Bool) : ∀ l : Str, (l.takeWhile p).length ≤ l.length := by
  intro l
  induction l with
  | nil => simp
  | cons c rest ih =>
    by_cases h : p c
    · simpa [List.takeWhile_cons, h] using ih
    · simp [List.takeWhile_cons, h]

theorem lookupS_upsert (q k v : Str) :
    ∀ m, lookupS q (upsert k v m) = if k = q then some v else lookupS q m := by
  intro m
  induction m with
  | nil => simp [upsert, lookupS]
  | cons p rest ih =>
    obtain ⟨k', v'⟩ := p
    by_cases h1 : k' = k
    · subst h1
      by_cases h2 : k' = q <;> simp [upsert, lookupS, h2]
    · by_cases h2 : k' = q
      · subst h2
        have hk : ¬ k = k' := fun h => h1 h.symm
        simp [upsert, lookupS, h1, hk]
      · simp [upsert, lookupS, h1, h2, ih]

theorem lookupS_foldUpsert (q : Str) :
    ∀ ds m, lookupS q (foldUpsert m ds) =
      match lastAssoc q ds with
      | some v => some v
      | none => lookupS q m := by
  intro ds
  induction ds with
  | nil => intro m; simp [foldUpsert, lastAssoc]
  | cons p rest ih =>
    intro m
    obtain ⟨k, v⟩ := p
    have step : foldUpsert m ((k, v) :: rest) = foldUpsert (upsert k v m) rest := rfl
    rw [step, ih]
    cases h : lastAssoc q rest with
    | some w => simp [lastAssoc, h]
    | none =>
      by_cases hk : k = q <;> simp [lastAssoc, h, hk, lookupS_upsert]

theorem splitChar_ne_nil (sep : Char) : ∀ l : Str, splitChar sep l ≠ [] := by
  intro l
  induction l with
  | nil => simp [splitChar]
  | cons c rest ih =>
    by_cases h : c = sep
    · simp [splitChar, h]
    · simp only [splitChar, if_neg h]
      cases hr : splitChar sep rest with
      | nil => exact absurd hr ih
      | cons a t => simp

theorem joinNL_cons_append (a b : Str) (xs : List Str) :
    joinNL ((a ++ '\n' :: b) :: xs) = a ++ '\n' :: joinNL (b :: xs) := by
  cases xs with
  | nil => simp [joinNL]
  | cons y ys => simp [joinNL]

theorem collectAux_found : ∀ (pre : List Str) (acc t : Str) (post : List Str),
    (∀ l ∈ pre, endsWithL [';'] (trimSpace l) = false) →
    endsWithL [';'] (trimSpace t) = true →
    collectAux acc (pre ++ t :: post) = (joinNL (acc :: (pre ++ [t])), some post) := by
  intro pre
  induction pre with
  | nil =>
    intro acc t post _ ht
    simp [collectAux, ht, joinNL]
  | cons h pre ih =>
    intro acc t post hpre ht
    have hh : endsWithL [';'] (trimSpace h) = false := hpre h (by simp)
    have hrest : ∀ l ∈ pre, endsWithL [';'] (trimSpace l) = false := by
      intro l hl; exact hpre l (by simp [hl])
    have : collectAux acc ((h :: pre) ++ t :: post)
        = collectAux (acc ++ '\n' :: h) (pre ++ t :: post) := by
      simp [collectAux, hh]
    rw [this, ih _ _ _ hrest ht, joinNL_cons_append]
    simp [joinNL]

/-! Claim C1. -/

/-- C1, counterexample: the claim predicts that a `;` at the end of a
physical line inside an open `[[` span does not end the element, so the
interior lines (`still inside`, `]]`) would appear in the content.  On
`src/lib.go`, `Parse c1doc` terminates the span at the interior `x();`
line: the content is `[[\nx()` and the interior lines are absent. -/
theorem c1_counterexample :
    Parse c1doc = .ok [elemOf [("a", "b"), ("KEY", "k"),
      ("Content", "[[\nx()"), ("Contents", "[[\nx()")]] ∧
    containsSub ("still inside".toList) ("[[\nx()".toList) = false ∧
    containsSub ("]]".toList) ("[[\nx()".toList) = false :=
  ⟨rfl, by decide, by decide⟩

/-- C1 (corrected): the element-span collection of `Parse` is not
bracket-aware: for an element line that does not itself end with `;`, the
span ends at the first following physical line whose trimmed form ends
with `;`, regardless of any `[[` without a matching `]]` in the
accumulated text, and the parser continues right after that line. -/
theorem c1_span_termination (first : Str) (pre : List Str) (t : Str) (post : List Str)
    (hfirst : endsWithL [';'] first = false)
    (hpre : ∀ l ∈ pre, endsWithL [';'] (trimSpace l) = false)
    (ht : endsWithL [';'] (trimSpace t) = true) :
    collectSpan first (pre ++ t :: post) = (joinNL (first :: (pre ++ [t])), post) := by
  have h1 : collectSpan first (pre ++ t :: post)
      = match collectAux first (pre ++ t :: post) with
        | (full, some remaining) => (full, remaining)
        | (full, none) => (full, pre ++ t :: post) := by
    simp [collectSpan, hfirst]
  rw [h1, collectAux_found pre first t post hpre ht]

/-- C1, witness: a span opening `[[` on its first line is terminated by
the very next `;`-ending line even though no `]]` has been seen. -/
theorem c1_witness :
    collectSpan (">a=\"b\">k>[[".toList)
        ["x();".toList, "still inside".toList, "]];".toList]
      = (">a=\"b\">k>[[\nx();".toList, ["still inside".toList, "]];".toList]) := by
  have h := c1_span_termination (">a=\"b\">k>[[".toList) [] ("x();".toList)
      (["still inside".toList, "]];".toList]) (by decide) (by simp) (by decide)
  simp only [List.nil_append] at h
  rw [h]
  decide

/-! Claim C2. -/

theorem elemParts_error (txt m : Str) (h : elemParts txt = .error m) :
    m = sep1Msg ∨ m = sep2Msg := by
  unfold elemParts at h
  dsimp only [] at h
  split at h
  · exact Or.inl (by injection h with h'; exact h'.symm)
  · split at h
    · exact Or.inr (by injection h with h'; exact h'.symm)
    · exact absurd h (by simp)

theorem parseElement_error (txt : Str) (env : EnvT) (m : Str)
    (h : parseElement txt env = .error m) :
    m = sep1Msg ∨ m = sep2Msg ∨ m = keyMsg ∨ m = attrMsg := by
  unfold parseElement at h
  dsimp only [] at h
  split at h
  · rename_i e heq
    have he : e = m := by injection h
    rcases elemParts_error txt e heq with h1 | h1
    · exact Or.inl (he ▸ h1)
    · exact Or.inr (Or.inl (he ▸ h1))
  · split at h
    · exact Or.inr (Or.inr (Or.inl (by injection h with h'; exact h'.symm)))
    · split at h
      · exact Or.inr (Or.inr (Or.inr (by injection h with h'; exact h'.symm)))
      · exact absurd h (by simp)

theorem goParse_error : ∀ (fuel : Nat) (lines : List Str) (b e : Bool) (env : EnvT)
    (forest : List Elem) (stack : List StackE) (m : Str),
    goParse fuel lines b e env forest stack = .error m →
    m = sep1Msg ∨ m = sep2Msg ∨ m = keyMsg ∨ m = attrMsg := by
  intro fuel
  induction fuel with
  | zero =>
    intro lines b e env forest stack m h
    simp [goParse] at h
  | succ fuel ih =>
    intro lines b e env forest stack m h
    cases lines with
    | nil => simp [goParse] at h
    | cons raw rest =>
      unfold goParse at h
      dsimp only [] at h
      split at h
      · exact ih _ _ _ _ _ _ _ h
      · split at h
        · exact ih _ _ _ _ _ _ _ h
        · split at h
          · exact ih _ _ _ _ _ _ _ h
          · split at h
            · exact ih _ _ _ _ _ _ _ h
            · split at h
              · exact ih _ _ _ _ _ _ _ h
              · split at h
                · split at h
                  · rename_i e' heq
                    have he : e' = m := by injection h
                    exact he ▸ parseElement_error _ _ _ heq
                  · exact ih _ _ _ _ _ _ _ h
                · exact ih _ _ _ _ _ _ _ h

/-- C2 (corrected): the missing-DOCTYPE rejection of `Parse` and
`ParseEnv` is decided by the first PHYSICAL line of the document
(`lines[0]` of the newline split), not by the first non-blank,
non-comment line: either entry point fails with the missing-DOCTYPE
error exactly when that first physical line does not contain the
substring `DOCTYPE=JTL`; moreover the missing-DOCTYPE error is the only
error `ParseEnv` can produce. -/
theorem c2_doctype_firstline (text : Str) :
    (Parse text = .error doctypeMsg ↔ containsSub doctypeMark (firstLine text) = false) ∧
    (ParseEnv text = .error doctypeMsg ↔ containsSub doctypeMark (firstLine text) = false) ∧
    (∀ m, ParseEnv text = .error m → m = doctypeMsg) := by
  cases hsp : splitChar '\n' text with
  | nil => exact absurd hsp (splitChar_ne_nil '\n' text)
  | cons l0 ls =>
    have hfl : firstLine text = l0 := by simp [firstLine, hsp]
    by_cases hct : containsSub doctypeMark l0 = true
    · refine ⟨⟨?_, ?_⟩, ⟨?_, ?_⟩, ?_⟩
      · intro h
        rw [show Parse text = goParse (l0 :: ls).length (l0 :: ls) false false [] [] [] by
          simp [Parse, hsp, hct]] at h
        rcases goParse_error _ _ _ _ _ _ _ _ h with h1 | h1 | h1 | h1 <;>
          exact absurd h1 (by decide)
      · intro h
        rw [hfl] at h
        rw [hct] at h
        exact absurd h (by decide)
      · intro h
        rw [show ParseEnv text = .ok (goEnv (l0 :: ls) false []) by
          simp [ParseEnv, hsp, hct]] at h
        exact absurd h (by simp)
      · intro h
        rw [hfl] at h
        rw [hct] at h
        exact absurd h (by decide)
      · intro m h
        rw [show ParseEnv text = .ok (goEnv (l0 :: ls) false []) by
          simp [ParseEnv, hsp, hct]] at h
        exact absurd h (by simp)
    · have hcf : containsSub doctypeMark l0 = false := by
        cases hcc : containsSub doctypeMark l0
        · rfl
        · exact absurd hcc hct
      refine ⟨⟨?_, ?_⟩, ⟨?_, ?_⟩, ?_⟩
      · intro _; rw [hfl]; exact hcf
      · intro _; simp [Parse, hsp, hcf]
      · intro _; rw [hfl]; exact hcf
      · intro _; simp [ParseEnv, hsp, hcf]
      · intro m h
        rw [show ParseEnv text = .error doctypeMsg by simp [ParseEnv, hsp, hcf]] at h
        injection h with h'
        exact h'.symm

/-- C2, counterexample: `c2doc` starts with a blank line; its first
non-blank, non-comment line is the second physical line, which contains
the DOCTYPE marker, yet both `Parse` and `ParseEnv` reject the document
with the missing-DOCTYPE error (the claim says such a document is not
rejected). -/
theorem c2_counterexample :
    (splitChar '\n' c2doc).headD [] = [] ∧
    ((splitChar '\n' c2doc).drop 1).headD [] = ">>>DOCTYPE=JTL;".toList ∧
    containsSub doctypeMark (((splitChar '\n' c2doc).drop 1).headD []) = true ∧
    Parse c2doc = .error doctypeMsg ∧
    ParseEnv c2doc = .error doctypeMsg :=
  ⟨rfl, rfl, by decide, rfl, rfl⟩

/-- C2, witness: the corrected characterization applied to `c2doc`. -/
theorem c2_witness :
    Parse c2doc = .error doctypeMsg ∧ ParseEnv c2doc = .error doctypeMsg :=
  ⟨(c2_doctype_firstline c2doc).1.mpr (by decide),
   (c2_doctype_firstline c2doc).2.1.mpr (by decide)⟩

/-! Claim C9. -/

/-- C9, counterexample: after the first `>>>END;`, `c9doc` contains a
second `>>>BEGIN;` followed by an element line.  The claim predicts the
lines after the first `>>>END;` are ignored, so the result would equal
that of the truncated document `c9short` (one element); `Parse` instead
re-enters the body and returns a second element. -/
theorem c9_counterexample :
    Parse c9doc = .ok [elemOf [("a", "b"), ("KEY", "k1"), ("Content", "x"), ("Contents", "x")],
      elemOf [("a", "b"), ("KEY", "k2"), ("Content", "y"), ("Contents", "y")]] ∧
    Parse c9short = .ok [elemOf [("a", "b"), ("KEY", "k1"), ("Content", "x"), ("Contents", "x")]] :=
  ⟨rfl, rfl⟩

/-- C9 (corrected): a `>>>END;` line only clears the in-body flag; lines
after it are ignored only as long as no further `>>>BEGIN;` or `>>>ENV;`
marker appears.  Formally: from a state with both flags off, a remaining
line list containing neither marker leaves the result unchanged (element
lines, declaration lines, comments and further `>>>END;` lines included);
a later `>>>BEGIN;`, by contrast, re-enters the body (see the
counterexample). -/
theorem c9_end_only_clears_body :
    ∀ (lines : List Str) (fuel : Nat) (env : EnvT) (forest : List Elem)
      (stack : List StackE),
    (∀ l ∈ lines, trimSpace l ≠ beginMarker ∧ trimSpace l ≠ envMarker) →
    goParse fuel lines false false env forest stack = .ok forest := by
  intro lines
  induction lines with
  | nil =>
    intro fuel env forest stack _
    cases fuel <;> simp [goParse]
  | cons raw rest ih =>
    intro fuel env forest stack hmark
    cases fuel with
    | zero => simp [goParse]
    | succ fuel =>
      have hrest : ∀ l ∈ rest, trimSpace l ≠ beginMarker ∧ trimSpace l ≠ envMarker := by
        intro l hl; exact hmark l (by simp [hl])
      have hb : trimSpace raw ≠ beginMarker := (hmark raw (by simp)).1
      have he : trimSpace raw ≠ envMarker := (hmark raw (by simp)).2
      unfold goParse
      dsimp only []
      split
      · exact ih fuel env forest stack hrest
      · split
        · exact ih fuel env forest stack hrest
        · rw [if_neg (by simp : ¬((false : Bool) && startsWithL tripleMark (trimSpace raw)) = true),
              if_neg (by simp : ¬((false : Bool) && startsWithL ['>'] (trimSpace raw)) = true)]
          exact ih fuel env forest stack hrest

/-- C9, witness: after the body is closed, an element-looking line and a
declaration line (no further `>>>BEGIN;`/`>>>ENV;` markers) leave the
forest unchanged. -/
theorem c9_witness :
    goParse 2 [">a=\"b\">zz>w;".toList, ">>>X=1;".toList] false false []
      [elemOf [("KEY", "k1")]] [] = .ok [elemOf [("KEY", "k1")]] :=
  c9_end_only_clears_body [">a=\"b\">zz>w;".toList, ">>>X=1;".toList] 2 [] _ [] (by decide)

/-! Claim C4. -/

theorem minFold_some_le : ∀ (ls : List Str) (m0 : Nat),
    ∃ m, ls.foldl minStep (some m0) = some m ∧ m ≤ m0 := by
  intro ls
  induction ls with
  | nil => intro m0; exact ⟨m0, rfl, le_refl m0⟩
  | cons h t ih =>
    intro m0
    by_cases hb : trimSpace h = []
    · have : minStep (some m0) h = some m0 := by simp [minStep, hb]
      simpa [this] using ih m0
    · set ind := countIndentation h with hind
      have hstep : minStep (some m0) h = some (if ind < m0 then ind else m0) := by
        simp [minStep, hb]
      obtain ⟨m, hm, hle⟩ := ih (if ind < m0 then ind else m0)
      refine ⟨m, by simpa [hstep] using hm, le_trans hle ?_⟩
      by_cases hc : ind < m0 <;> simp [hc]
      · omega

theorem minFold_le : ∀ (ls : List Str) (acc : Option Nat) (l : Str), l ∈ ls →
    trimSpace l ≠ [] →
    ∃ m, ls.foldl minStep acc = some m ∧ m ≤ countIndentation l := by
  intro ls
  induction ls with
  | nil => intro acc l hl; exact absurd hl (List.not_mem_nil l)
  | cons h t ih =>
    intro acc l hl hnb
    rcases List.mem_cons.mp hl with rfl | hl'
    · have hstep : ∃ v, minStep acc l = some v ∧ v ≤ countIndentation l := by
        cases acc with
        | none => exact ⟨countIndentation l, by simp [minStep, hnb], le_refl _⟩
        | some m0 =>
          refine ⟨if countIndentation l < m0 then countIndentation l else m0, by simp [minStep, hnb], ?_⟩
          by_cases hc : countIndentation l < m0 <;> simp [hc]
          · omega
      obtain ⟨v, hv, hvle⟩ := hstep
      obtain ⟨m, hm, hmle⟩ := minFold_some_le t v
      exact ⟨m, by simpa [hv] using hm, le_trans hmle hvle⟩
    · exact (by simpa using ih (minStep acc h) l hl' hnb)

theorem countIndentation_le_length (l : Str) : countIndentation l ≤ l.length :=
  takeWhile_len_le _ l

theorem filterMap_blank_map (g : Str → Str) : ∀ ls : List Str,
    (ls.filterMap (fun l => if trimSpace l = [] then none else some (g l)))
      = (ls.filter (fun l => !isBlankL l)).map g := by
  intro ls
  induction ls with
  | nil => rfl
  | cons h t ih =>
    by_cases hb : trimSpace h = []
    · simp [List.filterMap_cons, List.filter_cons, isBlankL, hb, ih]
    · simp [List.filterMap_cons, List.filter_cons, isBlankL, hb, ih]

/-- C4 (corrected): on `src/lib.go` the multi-line normalization equals:
drop every blank sub-line (interior ones included), strip the minimum
indentation (computed over non-blank sub-lines) from each remaining
sub-line, right-trim it, rejoin with newlines, and trim the whole result
of surrounding whitespace; single-line content is trimmed of surrounding
whitespace. -/
theorem c4_normalize_corrected (c : Str) :
    normalizeMulti c = normalizeAmended c ∧
    (containsSub ['\n'] c = false → contentNormalize c = trimSpace c) := by
  constructor
  · unfold normalizeMulti normalizeAmended
    dsimp only []
    set lines := splitChar '\n' c with hlines
    set mI : Nat := (minIndentOf lines).getD 0 with hmI
    rw [filterMap_blank_map]
    have hmap : ∀ l ∈ lines.filter (fun l => !isBlankL l),
        trimRightST (if 0 < mI ∧ mI ≤ l.length then l.drop mI else l)
          = trimRightST (l.drop mI) := by
      intro l hl
      have hmem := (List.mem_filter.mp hl).1
      have hnb : trimSpace l ≠ [] := by
        have := (List.mem_filter.mp hl).2
        simpa [isBlankL] using this
      by_cases h0 : 0 < mI
      · have hle : mI ≤ countIndentation l := by
          obtain ⟨m, hm, hmle⟩ := minFold_le lines none l hmem hnb
          have : minIndentOf lines = some m := hm
          rw [hmI, this]
          simpa using hmle
        have : mI ≤ l.length := le_trans hle (countIndentation_le_length l)
        simp [h0, this]
      · have : mI = 0 := by omega
        simp [this]
    exact congrArg trimSpace (congrArg joinNL (List.map_congr_left hmap))
  · intro hnl
    simp [contentNormalize, hnl]

/-- C4, counterexample: the claim says interior blank lines are
preserved; on the document `c4doc` the element's raw content is
`a\n\nb`, the claim's normalization keeps the blank interior line
(`a\n\nb`), but `Parse` returns content `a\nb`. -/
theorem c4_counterexample :
    elemParts (">x=\"y\">k>a\n\nb;".toList)
      = .ok ("x=\"y\"".toList, "k".toList, "a\n\nb".toList) ∧
    claimNormalize ("a\n\nb".toList) = "a\n\nb".toList ∧
    Parse c4doc = .ok [elemOf [("x", "y"), ("KEY", "k"), ("Content", "a\nb"), ("Contents", "a\nb")]] ∧
    ("a\nb".toList : Str) ≠ "a\n\nb".toList :=
  ⟨rfl, rfl, rfl, by decide⟩

/-- C4, witness: the corrected normalization applied to concrete
multi-line and single-line contents. -/
theorem c4_witness :
    normalizeMulti ("  a\n\n   b".toList) = normalizeAmended ("  a\n\n   b".toList) ∧
    contentNormalize ("  hi  ".toList) = trimSpace ("  hi  ".toList) :=
  ⟨(c4_normalize_corrected ("  a\n\n   b".toList)).1,
   (c4_normalize_corrected ("  hi  ".toList)).2 (by decide)⟩

/-! Claim C5. -/

theorem parseElement_ok_shape (txt : Str) (env : EnvT) (el : Elem)
    (h : parseElement txt env = .ok el) :
    ∃ a id c, elemParts txt = .ok (a, id, c) ∧ id ≠ [] ∧ scanAttrs a ≠ [] ∧
      el = Elem.mk (upsert contentsK (substEnv (contentNormalize c) env)
        (upsert contentK (substEnv (contentNormalize c) env)
          (upsert keyK id (foldUpsert [] (scanAttrs a))))) [] := by
  unfold parseElement at h
  dsimp only [] at h
  split at h
  · exact absurd h (by simp)
  · rename_i a id c heq
    split at h
    · exact absurd h (by simp)
    · rename_i hid
      split at h
      · exact absurd h (by simp)
      · rename_i hms
        refine ⟨a, id, c, heq, hid, hms, ?_⟩
        injection h with h'
        exact h'.symm

theorem parseElement_keyP (txt : Str) (env : EnvT) (el : Elem)
    (h : parseElement txt env = .ok el) :
    keyP el.fields ∧ el.kids = [] := by
  obtain ⟨a, id, c, _, hid, _, hel⟩ := parseElement_ok_shape txt env el h
  subst hel
  refine ⟨⟨id, ?_, hid⟩, rfl⟩
  show lookupS keyK (upsert contentsK _ (upsert contentK _ (upsert keyK id _))) = some id
  rw [lookupS_upsert, if_neg (by decide), lookupS_upsert, if_neg (by decide),
      lookupS_upsert, if_pos rfl]

theorem modifyIdx_mem (g : Elem → Elem) : ∀ (i : Nat) (l : List Elem) (x : Elem),
    x ∈ modifyIdx g i l → x ∈ l ∨ ∃ y, y ∈ l ∧ x = g y := by
  intro i l
  induction l generalizing i with
  | nil => intro x hx; simp [modifyIdx] at hx
  | cons h t ih =>
    intro x hx
    cases i with
    | zero =>
      rcases List.mem_cons.mp (by simpa [modifyIdx] using hx) with h1 | h1
      · exact Or.inr ⟨h, by simp, h1⟩
      · exact Or.inl (by simp [h1])
    | succ n =>
      rcases List.mem_cons.mp (by simpa [modifyIdx] using hx) with h1 | h1
      · exact Or.inl (by simp [h1])
      · rcases ih n x h1 with h2 | ⟨y, hy, h3⟩
        · exact Or.inl (by simp [h2])
        · exact Or.inr ⟨y, by simp [hy], h3⟩

theorem attachPath_all (P : List (Str × Str) → Prop) :
    ∀ (path : List Nat) (forest : List Elem) (e : Elem),
    (∀ x ∈ forest, ElemAll P x) → ElemAll P e →
    ∀ x ∈ attachPath path forest e, ElemAll P x := by
  intro path
  induction path with
  | nil =>
    intro forest e hf he x hx
    rcases List.mem_append.mp hx with h1 | h1
    · exact hf x h1
    · rwa [List.mem_singleton.mp h1]
  | cons i rest ih =>
    intro forest e hf he x hx
    rcases modifyIdx_mem _ i forest x hx with h1 | ⟨y, hy, rfl⟩
    · exact hf x h1
    · have hy' := hf y hy
      cases hy' with
      | intro f ks hPf hks =>
        exact ElemAll.intro _ _ hPf (fun k hk => ih ks e hks he k hk)

theorem nestStep_forest_all (P : List (Str × Str) → Prop) (f : List (Str × Str))
    (n : Nat) (forest : List Elem) (stack : List StackE)
    (hf : ∀ x ∈ forest, ElemAll P x) (hP : P f) :
    ∀ x ∈ (nestStep f n (forest, stack)).1, ElemAll P x := by
  have he : ElemAll P (Elem.mk f []) := ElemAll.intro f [] hP (by simp)
  unfold nestStep
  dsimp only []
  split
  · exact attachPath_all P [] forest _ hf he
  · exact attachPath_all P _ forest _ hf he

theorem goParse_all_keyP : ∀ (fuel : Nat) (lines : List Str)
    (b e : Bool) (env : EnvT) (forest : List Elem) (stack : List StackE),
    (∀ x ∈ forest, ElemAll keyP x) →
    ∀ out, goParse fuel lines b e env forest stack = .ok out →
    ∀ x ∈ out, ElemAll keyP x := by
  intro fuel
  induction fuel with
  | zero =>
    intro lines b e env forest stack hf out hout
    have : forest = out := by simpa [goParse] using hout
    exact this ▸ hf
  | succ fuel ih =>
    intro lines b e env forest stack hf out hout
    cases lines with
    | nil =>
      have : forest = out := by simpa [goParse] using hout
      exact this ▸ hf
    | cons raw rest =>
      unfold goParse at hout
      dsimp only [] at hout
      split at hout
      · exact ih _ _ _ _ _ _ hf _ hout
      · split at hout
        · exact ih _ _ _ _ _ _ hf _ hout
        · split at hout
          · exact ih _ _ _ _ _ _ hf _ hout
          · split at hout
            · exact ih _ _ _ _ _ _ hf _ hout
            · split at hout
              · exact ih _ _ _ _ _ _ hf _ hout
              · split at hout
                · split at hout
                  · exact absurd hout (by simp)
                  · rename_i el hok
                    exact ih _ _ _ _ _ _
                      (nestStep_forest_all keyP el.fields (countIndentation raw)
                        forest stack hf (parseElement_keyP _ _ _ hok).1) _ hout
                · exact ih _ _ _ _ _ _ hf _ hout

/-- C5 (corrected): a successful `parseElement` yields a non-empty key
and at least one attribute match; an element span whose key trims to
empty fails with the empty-key error; a span with a non-empty key and
zero `identifier="value"` matches fails with the no-attributes error
(when both conditions hold, the empty-key check of `src/lib.go` line 173
fires first — this is the one correction to the claim); and every
element of a successful `Parse` forest, children included, carries a
non-empty key. -/
theorem c5_key_and_attrs :
    (∀ txt env el, parseElement txt env = .ok el →
      ∃ a id c, elemParts txt = .ok (a, id, c) ∧ id ≠ [] ∧ scanAttrs a ≠ [] ∧
        lookupS keyK el.fields = some id) ∧
    (∀ txt env a id c, elemParts txt = .ok (a, id, c) → id = [] →
      parseElement txt env = .error keyMsg) ∧
    (∀ txt env a id c, elemParts txt = .ok (a, id, c) → id ≠ [] → scanAttrs a = [] →
      parseElement txt env = .error attrMsg) ∧
    (∀ text out, Parse text = .ok out → ∀ x ∈ out, ElemAll keyP x) := by
  refine ⟨?_, ?_, ?_, ?_⟩
  · intro txt env el h
    obtain ⟨a, id, c, heq, hid, hms, hel⟩ := parseElement_ok_shape txt env el h
    refine ⟨a, id, c, heq, hid, hms, ?_⟩
    subst hel
    show lookupS keyK (upsert contentsK _ (upsert contentK _ (upsert keyK id _))) = some id
    rw [lookupS_upsert, if_neg (by decide), lookupS_upsert, if_neg (by decide),
        lookupS_upsert, if_pos rfl]
  · intro txt env a id c heq hid
    unfold parseElement
    rw [heq]
    dsimp only []
    rw [if_pos hid]
  · intro txt env a id c heq hid hms
    unfold parseElement
    rw [heq]
    dsimp only []
    rw [if_neg hid, if_pos hms]
  · intro text out h x hx
    unfold Parse at h
    dsimp only [] at h
    split at h
    · exact absurd h (by simp)
    · rename_i l0 ls hsp
      split at h
      · exact goParse_all_keyP _ _ _ _ _ _ _ (by simp) out h x hx
      · exact absurd h (by simp)

/-- C5, counterexample: the span `>foo> >x;` has zero attribute matches
(so the claim predicts the no-attributes error) but its key is also
empty, and `src/lib.go` checks the key first: the parse fails with the
empty-key error instead. -/
theorem c5_counterexample :
    elemParts c5span = .ok ("foo".toList, [], "x".toList) ∧
    scanAttrs ("foo".toList) = [] ∧
    Parse c5doc = .error keyMsg ∧
    keyMsg ≠ attrMsg :=
  ⟨rfl, rfl, rfl, by decide⟩

/-- C5, witness: the two error branches and the forest invariant applied
to concrete inputs. -/
theorem c5_witness :
    parseElement c5span [] = .error keyMsg ∧
    parseElement (">zz> k >x;".toList) [] = .error attrMsg ∧
    ElemAll keyP (elemOf [("a", "b"), ("KEY", "k1"), ("Content", "x"), ("Contents", "x")]) := by
  refine ⟨c5_key_and_attrs.2.1 c5span [] ("foo".toList) [] ("x".toList) rfl rfl,
    c5_key_and_attrs.2.2.1 (">zz> k >x;".toList) [] ("zz".toList) ("k".toList) ("x".toList) rfl
      (by decide) rfl, ?_⟩
  exact c5_key_and_attrs.2.2.2 c9short
    [elemOf [("a", "b"), ("KEY", "k1"), ("Content", "x"), ("Contents", "x")]] rfl
    (elemOf [("a", "b"), ("KEY", "k1"), ("Content", "x"), ("Contents", "x")]) (by simp)

/-! Claim C6. -/

/-- C6 (confirmed): environment substitution replaces an element's
content only when the whole normalized content starts with the fixed
token `$env:`; the name is the trimmed remainder; a name present in the
table yields the table value, an absent name leaves the literal token
unchanged (never an error), and content without the token prefix is
untouched.  Every parsed element's `Content`/`Contents` fields are
exactly the substitution applied to its normalized raw content. -/
theorem c6_env_substitution :
    (∀ (c : Str) (env : EnvT) (v : Str), c ≠ [] → startsWithL envTok c = true →
      lookupS (trimSpace (trimPre envTok c)) env = some v → substEnv c env = v) ∧
    (∀ (c : Str) (env : EnvT),
      lookupS (trimSpace (trimPre envTok c)) env = none → substEnv c env = c) ∧
    (∀ (c : Str) (env : EnvT), startsWithL envTok c = false → substEnv c env = c) ∧
    (∀ txt env el, parseElement txt env = .ok el →
      ∃ a id c, elemParts txt = .ok (a, id, c) ∧
        lookupS contentK el.fields = some (substEnv (contentNormalize c) env) ∧
        lookupS contentsK el.fields = some (substEnv (contentNormalize c) env)) := by
  refine ⟨?_, ?_, ?_, ?_⟩
  · intro c env v hne hsw hl
    simp [substEnv, hne, hsw, hl]
  · intro c env hl
    by_cases hne : c = []
    · simp [substEnv, hne]
    · by_cases hsw : startsWithL envTok c = true
      · simp [substEnv, hne, hsw, hl]
      · simp [substEnv, hne, hsw]
  · intro c env hsw
    simp [substEnv, hsw]
  · intro txt env el h
    obtain ⟨a, id, c, heq, _, _, hel⟩ := parseElement_ok_shape txt env el h
    refine ⟨a, id, c, heq, ?_, ?_⟩ <;> subst hel
    · show lookupS contentK (upsert contentsK _ (upsert contentK _ _)) = _
      rw [lookupS_upsert, if_neg (by decide), lookupS_upsert, if_pos rfl]
    · show lookupS contentsK (upsert contentsK _ _) = _
      rw [lookupS_upsert, if_pos rfl]

/-- C6, witness: substitution on a present name, an absent name, and a
non-token content. -/
theorem c6_witness :
    substEnv ("$env:NAME2".toList) (fieldsOf [("NAME2", "dev2")]) = "dev2".toList ∧
    substEnv ("$env:XX".toList) [] = "$env:XX".toList ∧
    substEnv ("plain $env:XX".toList) (fieldsOf [("XX", "v")]) = "plain $env:XX".toList :=
  ⟨c6_env_substitution.1 ("$env:NAME2".toList) (fieldsOf [("NAME2", "dev2")]) ("dev2".toList)
      (by decide) (by decide) rfl,
   c6_env_substitution.2.1 ("$env:XX".toList) [] rfl,
   c6_env_substitution.2.2.1 ("plain $env:XX".toList) (fieldsOf [("XX", "v")]) (by decide)⟩

/-! Claim C7. -/

theorem procDecl_declOf (env : EnvT) (seg : Str) :
    procDecl env seg = match declOf seg with
      | some p => upsert p.1 p.2 env
      | none => env := by
  unfold procDecl declOf
  dsimp only []
  by_cases hsw : startsWithL tripleMark (trimSpace seg) = true
  · rw [if_pos hsw, if_pos hsw]
    cases h : splitFirst '=' ((trimSpace seg).drop 3) with
    | none => simp
    | some p => simp
  · rw [if_neg hsw, if_neg hsw]

theorem foldl_procDecl_decls : ∀ (segs : List Str) (env : EnvT),
    segs.foldl procDecl env = foldUpsert env (segs.filterMap declOf) := by
  intro segs
  induction segs with
  | nil => intro env; rfl
  | cons s t ih =>
    intro env
    rw [List.foldl_cons, ih, procDecl_declOf]
    cases h : declOf s with
    | none => simp [List.filterMap_cons, h]
    | some p => simp [List.filterMap_cons, h, foldUpsert]

theorem processEnvLine_decls (env : EnvT) (line : Str) :
    processEnvLine env line = foldUpsert env (lineDecls line) :=
  foldl_procDecl_decls (splitChar ';' line) env

theorem goEnv_decls : ∀ (lines : List Str) (inEnv : Bool) (env : EnvT),
    goEnv lines inEnv env = foldUpsert env (envDeclsFrom lines inEnv) := by
  intro lines
  induction lines with
  | nil => intro inEnv env; rfl
  | cons raw rest ih =>
    intro inEnv env
    unfold goEnv envDeclsFrom
    dsimp only []
    split
    · exact ih inEnv env
    · split
      · exact ih true env
      · split
        · rfl
        · split
          · rw [ih inEnv (processEnvLine env (trimSpace raw)), processEnvLine_decls]
            unfold foldUpsert
            rw [List.foldl_append]
          · exact ih inEnv env

/-- C7 (confirmed): for every environment declaration segment that
carries the `>>>` marker and contains `=`, the resulting table maps the
trimmed name to the trimmed value of the LAST such declaration in
document order (split at the first `=` only, as `declOf` does); a
marked segment without `=` changes nothing; and a physical line is
processed as the `;`-separated sequence of its segments.  `Parse` builds
its table with the same `processEnvLine`. -/
theorem c7_env_table :
    (∀ text m name, ParseEnv text = .ok m →
      lookupS name m = lastAssoc name (envDecls text)) ∧
    (∀ env line, processEnvLine env line = foldUpsert env (lineDecls line)) ∧
    (∀ env seg, declOf seg = none → procDecl env seg = env) := by
  refine ⟨?_, processEnvLine_decls, ?_⟩
  · intro text m name h
    have hm : m = goEnv (splitChar '\n' text) false [] := by
      unfold ParseEnv at h
      dsimp only [] at h
      split at h
      · exact absurd h (by simp)
      · rename_i l0 ls hsp
        split at h
        · injection h with h'
          exact h'.symm
        · exact absurd h (by simp)
    rw [hm, goEnv_decls, lookupS_foldUpsert]
    cases h2 : lastAssoc name (envDecls text) with
    | none => simp [envDecls] at h2 ⊢; rw [h2]; rfl
    | some v => simp [envDecls] at h2 ⊢; rw [h2]
  · intro env seg h
    rw [procDecl_declOf, h]

/-- C7, witness: `A` is declared twice on one line (last wins), `B` with
surrounding whitespace (trimmed), `nope=9` carries no marker, and a
declaration after `>>>BEGIN;` is not reached. -/
theorem c7_witness :
    ParseEnv c7doc = .ok (fieldsOf [("A", "2"), ("B", "spaced value")]) ∧
    lookupS ("A".toList) (fieldsOf [("A", "2"), ("B", "spaced value")])
      = lastAssoc ("A".toList) (envDecls c7doc) ∧
    lastAssoc ("A".toList) (envDecls c7doc) = some ("2".toList) :=
  ⟨rfl, c7_env_table.1 c7doc (fieldsOf [("A", "2"), ("B", "spaced value")]) ("A".toList) rfl,
   by decide⟩

/-! Claim C8. -/

/-- C8 (confirmed): `c8doc` (the body line
`>class="test" tag="div">id>;`) parses into one element with key `id`,
the two attributes, and empty content; and in general `parseElement`
succeeds whenever the separators are found, the key is non-empty and at
least one attribute matches — the content (in particular an empty one)
never decides success. -/
theorem c8_empty_content :
    Parse c8doc = .ok [elemOf [("class", "test"), ("tag", "div"), ("KEY", "id"),
      ("Content", ""), ("Contents", "")]] ∧
    (∀ txt env a id c, elemParts txt = .ok (a, id, c) → id ≠ [] → scanAttrs a ≠ [] →
      parseElement txt env = .ok (Elem.mk (upsert contentsK (substEnv (contentNormalize c) env)
        (upsert contentK (substEnv (contentNormalize c) env)
          (upsert keyK id (foldUpsert [] (scanAttrs a))))) [])) := by
  refine ⟨rfl, ?_⟩
  intro txt env a id c heq hid hms
  unfold parseElement
  rw [heq]
  dsimp only []
  rw [if_neg hid, if_neg hms]

/-- C8, witness: the success rule applied to a span with empty content. -/
theorem c8_witness :
    parseElement (">class=\"e\">id>;".toList) []
      = .ok (Elem.mk (upsert contentsK (substEnv (contentNormalize []) [])
          (upsert contentK (substEnv (contentNormalize []) [])
            (upsert keyK ("id".toList) (foldUpsert [] (scanAttrs ("class=\"e\"".toList)))))) []) :=
  c8_empty_content.2 (">class=\"e\">id>;".toList) [] ("class=\"e\"".toList) ("id".toList) [] rfl
    (by decide) (by decide)

/-! Claim C10. -/

theorem lastAssoc_foldUpsert_nil (q : Str) (ds : List (Str × Str)) :
    lookupS q (foldUpsert [] ds) = lastAssoc q ds := by
  rw [lookupS_foldUpsert]
  cases h : lastAssoc q ds with
  | none => simp [lookupS]
  | some v => simp

/-- C10 (confirmed): every element `parseElement` returns is one flat
map: the reserved keys `KEY`, `Content` and `Contents` are written last,
`Content` and `Contents` always hold the identical content string, the
key field holds the parsed id, and any non-reserved attribute holds the
value of its last regex match — so an attribute literally named `KEY`,
`Content` or `Contents` is overwritten by the element's own key/content
and does not survive. -/
theorem c10_flat_map :
    ∀ txt env el, parseElement txt env = .ok el →
      el.kids = [] ∧
      ∃ a id c, elemParts txt = .ok (a, id, c) ∧
        lookupS keyK el.fields = some id ∧
        lookupS contentK el.fields = lookupS contentsK el.fields ∧
        lookupS contentsK el.fields = some (substEnv (contentNormalize c) env) ∧
        (∀ q, q ≠ keyK → q ≠ contentK → q ≠ contentsK →
          lookupS q el.fields = lastAssoc q (scanAttrs a)) := by
  intro txt env el h
  obtain ⟨a, id, c, heq, hid, hms, hel⟩ := parseElement_ok_shape txt env el h
  subst hel
  refine ⟨rfl, a, id, c, heq, ?_, ?_, ?_, ?_⟩
  · show lookupS keyK (upsert contentsK _ (upsert contentK _ (upsert keyK id _))) = some id
    rw [lookupS_upsert, if_neg (by decide), lookupS_upsert, if_neg (by decide),
        lookupS_upsert, if_pos rfl]
  · show lookupS contentK (upsert contentsK _ (upsert contentK _ _))
      = lookupS contentsK (upsert contentsK _ _)
    rw [lookupS_upsert, if_neg (by decide), lookupS_upsert, if_pos rfl,
        lookupS_upsert, if_pos rfl]
  · show lookupS contentsK (upsert contentsK _ _) = _
    rw [lookupS_upsert, if_pos rfl]
  · intro q hqk hqc hqcs
    show lookupS q (upsert contentsK _ (upsert contentK _ (upsert keyK id
      (foldUpsert [] (scanAttrs a))))) = _
    rw [lookupS_upsert, if_neg (fun hh => hqcs hh.symm),
        lookupS_upsert, if_neg (fun hh => hqc hh.symm),
        lookupS_upsert, if_neg (fun hh => hqk hh.symm),
        lastAssoc_foldUpsert_nil]

/-- C10, witness: the span `>KEY="zap" a="b">myid>c;` has an attribute
literally named `KEY`; in the parsed flat map it is overwritten by the
element key `myid`. -/
theorem c10_witness :
    parseElement c10span [] = .ok c10elem ∧
    scanAttrs ("KEY=\"zap\" a=\"b\"".toList)
      = [("KEY".toList, "zap".toList), ("a".toList, "b".toList)] ∧
    lookupS keyK c10elem.fields = some ("myid".toList) ∧
    lookupS ("a".toList) c10elem.fields
      = lastAssoc ("a".toList) (scanAttrs ("KEY=\"zap\" a=\"b\"".toList)) := by
  refine ⟨rfl, rfl, ?_, ?_⟩
  · obtain ⟨_, a, id, c, hep, hkey, _, _, _⟩ := c10_flat_map c10span [] c10elem rfl
    have h2 : elemParts c10span
        = .ok (("KEY=\"zap\" a=\"b\"".toList), ("myid".toList), ("c".toList)) := rfl
    rw [h2] at hep
    injection hep with h3
    rw [hkey]
    rw [show id = "myid".toList by
      have := congrArg (fun p => p.2.1) h3
      simpa using this.symm]
  · obtain ⟨_, a, id, c, hep, _, _, _, hq⟩ := c10_flat_map c10span [] c10elem rfl
    have h2 : elemParts c10span
        = .ok (("KEY=\"zap\" a=\"b\"".toList), ("myid".toList), ("c".toList)) := rfl
    rw [h2] at hep
    injection hep with h3
    have ha : a = "KEY=\"zap\" a=\"b\"".toList := by
      have := congrArg (fun p => p.1) h3
      simpa using this.symm
    rw [ha] at hq
    exact hq ("a".toList) (by decide) (by decide) (by decide)

/-! Claim C3. -/

theorem chain_getAt : ∀ (fs : List (List (Str × Str))) (f : List (Str × Str)),
    ∃ g, getAt (List.replicate (fs.length + 1) 0) [chainOf f fs]
      = some (Elem.mk g []) := by
  intro fs
  induction fs with
  | nil => intro f; exact ⟨f, rfl⟩
  | cons g rest ih =>
    intro f
    have h1 : List.replicate ((g :: rest).length + 1) 0
        = 0 :: List.replicate (rest.length + 1) 0 := by
      simp [List.replicate_succ]
    rw [h1]
    have h2 : getAt (0 :: List.replicate (rest.length + 1) 0) [chainOf f (g :: rest)]
        = getAt (List.replicate (rest.length + 1) 0) [chainOf g rest] := by
      cases hrep : List.replicate (rest.length + 1) 0 with
      | nil => simp [List.replicate_succ] at hrep
      | cons i t => rfl
    rw [h2]
    exact ih g

theorem chain_kidsCount (fs : List (List (Str × Str))) (f : List (Str × Str)) :
    kidsCountAt (List.replicate (fs.length + 1) 0) [chainOf f fs] = 0 := by
  obtain ⟨g, hg⟩ := chain_getAt fs f
  simp [kidsCountAt, hg, Elem.kids]

theorem chain_attach : ∀ (fs : List (List (Str × Str))) (f g : List (Str × Str)),
    attachPath (List.replicate (fs.length + 1) 0) [chainOf f fs] (Elem.mk g [])
      = [chainOf f (fs ++ [g])] := by
  intro fs
  induction fs with
  | nil => intro f g; rfl
  | cons h rest ih =>
    intro f g
    have h1 : List.replicate ((h :: rest).length + 1) 0
        = 0 :: List.replicate (rest.length + 1) 0 := by
      simp [List.replicate_succ]
    rw [h1]
    show modifyIdx _ 0 [chainOf f (h :: rest)] = [chainOf f ((h :: rest) ++ [g])]
    simp only [modifyIdx, chainOf, Elem.fields, Elem.kids]
    rw [ih h]
    rfl

theorem nest_chain_loop : ∀ (rest : List (List (Str × Str) × Nat))
    (f : List (Str × Str)) (fs : List (List (Str × Str))) (m : Nat) (stack : List StackE),
    List.Chain' (· < ·) (m :: rest.map Prod.snd) →
    ∃ st', rest.foldl (fun st it => nestStep it.1 it.2 st)
        ([chainOf f fs], (List.replicate (fs.length + 1) 0, m) :: stack)
      = ([chainOf f (fs ++ rest.map Prod.fst)], st') := by
  intro rest
  induction rest with
  | nil =>
    intro f fs m stack _
    exact ⟨(List.replicate (fs.length + 1) 0, m) :: stack, by simp⟩
  | cons it rest ih =>
    intro f fs m stack hch
    obtain ⟨g, n⟩ := it
    have hmn : m < n := by
      have := List.chain'_cons.mp hch
      simpa using this.1
    have hch' : List.Chain' (· < ·) (n :: rest.map Prod.snd) := by
      have := List.chain'_cons.mp hch
      simpa using this.2
    have hstep : nestStep g n ([chainOf f fs], (List.replicate (fs.length + 1) 0, m) :: stack)
        = ([chainOf f (fs ++ [g])],
           (List.replicate ((fs ++ [g]).length + 1) 0, n)
             :: (List.replicate (fs.length + 1) 0, m) :: stack) := by
      unfold nestStep
      dsimp only []
      have hdw : ((List.replicate (fs.length + 1) 0, m) :: stack).dropWhile
          (fun s => decide (n ≤ s.2)) = (List.replicate (fs.length + 1) 0, m) :: stack := by
        rw [List.dropWhile_cons]
        simp [Nat.not_le.mpr hmn]
      rw [hdw]
      dsimp only []
      rw [chain_attach fs f g, chain_kidsCount fs f]
      have : List.replicate (fs.length + 1) 0 ++ [0]
          = List.replicate ((fs ++ [g]).length + 1) 0 := by
        simp [List.replicate_succ' (fs.length + 1) 0]
      rw [this]
    rw [List.foldl_cons]
    dsimp only []
    rw [hstep]
    obtain ⟨st', hst⟩ := ih f (fs ++ [g]) n ((List.replicate (fs.length + 1) 0, m) :: stack) hch'
    refine ⟨st', ?_⟩
    rw [hst]
    simp

theorem dropWhile_eq_filter_sorted (n : Nat) : ∀ (stack : List StackE),
    List.Pairwise (fun a b : StackE => b.2 < a.2) stack →
    stack.dropWhile (fun s => decide (n ≤ s.2))
      = stack.filter (fun s => decide (s.2 < n)) := by
  intro stack
  induction stack with
  | nil => intro _; rfl
  | cons x rest ih =>
    intro hp
    by_cases hx : n ≤ x.2
    · have hnx : ¬ x.2 < n := by omega
      simpa [List.dropWhile_cons, List.filter_cons, hx, hnx]
        using ih (List.pairwise_cons.mp hp).2
    · have hxn : x.2 < n := by omega
      have htail : rest.filter (fun s => decide (s.2 < n)) = rest := by
        apply List.filter_eq_self.mpr
        intro a ha
        have h1 : a.2 < x.2 := (List.pairwise_cons.mp hp).1 a ha
        simp
        omega
      simp [List.dropWhile_cons, List.filter_cons, hx, hxn, htail]

/-- C3 (confirmed): (1) given the stack invariant (indentations strictly
decrease from top to bottom, which every reachable stack satisfies since
pushes happen only after the pops), the nesting step of `Parse` pops
exactly the entries with indentation `≥ L` and pushes the new element on
what remains, so the parent is the nearest preceding element with
strictly smaller indentation; (2) a stream of N elements with strictly
increasing indentation resolves to a single root heading one chain of
depth N. -/
theorem c3_nesting :
    (∀ (f : List (Str × Str)) (n : Nat) (forest : List Elem) (stack : List StackE),
      List.Pairwise (fun a b : StackE => b.2 < a.2) stack →
      ∃ p, (nestStep f n (forest, stack)).2
        = (p, n) :: stack.filter (fun s => decide (s.2 < n))) ∧
    (∀ (f : List (Str × Str)) (n : Nat) (rest : List (List (Str × Str) × Nat)),
      List.Chain' (· < ·) (n :: rest.map Prod.snd) →
      runNest ((f, n) :: rest) = [chainOf f (rest.map Prod.fst)]) := by
  constructor
  · intro f n forest stack hp
    unfold nestStep
    dsimp only []
    rw [dropWhile_eq_filter_sorted n stack hp]
    cases hst : stack.filter (fun s => decide (s.2 < n)) with
    | nil => exact ⟨[forest.length], rfl⟩
    | cons a t =>
      obtain ⟨p, m⟩ := a
      exact ⟨p ++ [kidsCountAt p forest], rfl⟩
  · intro f n rest hch
    unfold runNest
    rw [List.foldl_cons]
    dsimp only []
    have h0 : nestStep f n (([] : List Elem), ([] : List StackE))
        = ([chainOf f []], (List.replicate 1 0, n) :: []) := rfl
    rw [h0]
    have hl := nest_chain_loop rest f [] n [] hch
    simp only [List.length_nil, List.nil_append, Nat.zero_add] at hl
    obtain ⟨st', hst⟩ := hl
    rw [hst]

/-- C3, witness: the pop/push step on a sorted stack (entries at
indentation 5 popped, 1 kept, for a new element at indentation 3), and a
three-element strictly increasing stream resolving to one chain. -/
theorem c3_witness :
    (∃ p, (nestStep (fieldsOf [("a", "9")]) 3
        ([elemOf [("q", "0")]], [([0], 5), ([1], 1)])).2
      = (p, 3) :: [(([1] : List Nat), 1)]) ∧
    runNest [(fieldsOf [("a", "1")], 0), (fieldsOf [("a", "2")], 2), (fieldsOf [("a", "3")], 5)]
      = [chainOf (fieldsOf [("a", "1")]) [fieldsOf [("a", "2")], fieldsOf [("a", "3")]]] := by
  constructor
  · have h := c3_nesting.1 (fieldsOf [("a", "9")]) 3 [elemOf [("q", "0")]]
      [([0], 5), ([1], 1)] (by simp)
    simpa using h
  · have h := c3_nesting.2 (fieldsOf [("a", "1")]) 0
      [(fieldsOf [("a", "2")], 2), (fieldsOf [("a", "3")], 5)] (by simp)
    simpa using h

/-! Fuel adequacy: the fuel parameters of `scanAttrsF` and `goParse` are
a device for structural recursion only — any fuel at least the input
length produces the same result, so `scanAttrs` and `Parse` (which pass
exactly the length) compute the functions the Go loops compute. -/

theorem tryAttr_rem_len (l nm v rem : Str) (h : tryAttr l = some (nm, v, rem)) :
    rem.length < l.length := by
  unfold tryAttr at h
  dsimp only [] at h
  split at h
  · exact absurd h (by simp)
  · split at h
    · rename_i rest heq
      split at h
      · exact absurd h (by simp)
      · rename_i hv
        split at h
        · rename_i rem' heq2
          have hlen1 : (l.drop (l.takeWhile isWordChar).length).length
              = rest.length + 2 := by rw [heq]; rfl
          have hlen2 : (rest.drop ((rest.takeWhile (fun c => c ≠ '\"')).length)).length
              = rem'.length + 1 := by rw [heq2]; rfl
          have hd1 : (l.drop (l.takeWhile isWordChar).length).length
              = l.length - (l.takeWhile isWordChar).length := by
            simp [List.length_drop]
          have hd2 : (rest.drop ((rest.takeWhile (fun c => c ≠ '\"')).length)).length
              = rest.length - (rest.takeWhile (fun c => c ≠ '\"')).length := by
            simp [List.length_drop]
          have ht1 : (l.takeWhile isWordChar).length ≤ l.length :=
            takeWhile_len_le _ l
          have ht2 : (rest.takeWhile (fun c => c ≠ '\"')).length ≤ rest.length :=
            takeWhile_len_le _ rest
          have hrem : rem = rem' := by
            injection h with h1
            have := congrArg (fun p => p.2.2) h1
            simpa using this.symm
          subst hrem
          omega
        · exact absurd h (by simp)
    · exact absurd h (by simp)

theorem scanAttrsF_fuel : ∀ (f1 f2 : Nat) (l : Str), l.length ≤ f1 → l.length ≤ f2 →
    scanAttrsF f1 l = scanAttrsF f2 l := by
  intro f1
  induction f1 with
  | zero =>
    intro f2 l h1 _
    have : l = [] := List.eq_nil_of_length_eq_zero (Nat.le_zero.mp h1)
    subst this
    cases f2 <;> rfl
  | succ f1 ih =>
    intro f2 l h1 h2
    cases l with
    | nil => cases f2 <;> rfl
    | cons c rest =>
      cases f2 with
      | zero => simp at h2
      | succ f2 =>
        unfold scanAttrsF
        cases htry : tryAttr (c :: rest) with
        | none =>
          dsimp only []
          have hr : rest.length ≤ f1 := by simp at h1; omega
          have hr2 : rest.length ≤ f2 := by simp at h2; omega
          exact ih f2 rest hr hr2
        | some t =>
          obtain ⟨nm, v, rem⟩ := t
          dsimp only []
          have hlt := tryAttr_rem_len _ _ _ _ htry
          have hr : rem.length ≤ f1 := by simp at hlt h1; omega
          have hr2 : rem.length ≤ f2 := by simp at hlt h2; omega
          rw [ih f2 rem hr hr2]

theorem collectAux_rem_len : ∀ (ls : List Str) (acc full : Str) (rem : List Str),
    collectAux acc ls = (full, some rem) → rem.length ≤ ls.length := by
  intro ls
  induction ls with
  | nil =>
    intro acc full rem h
    simp [collectAux] at h
  | cons l t ih =>
    intro acc full rem h
    unfold collectAux at h
    dsimp only [] at h
    split at h
    · have hrem : t = rem := by
        injection h with h1 h2
        injection h2
      rw [← hrem, List.length_cons]
      omega
    · have := ih _ _ _ h
      rw [List.length_cons]
      omega

theorem collectSpan_rem_len (first : Str) (rest : List Str) :
    (collectSpan first rest).2.length ≤ rest.length := by
  unfold collectSpan
  split
  · exact le_refl _
  · split
    · rename_i full rem heq
      exact collectAux_rem_len rest first full rem heq
    · exact le_refl _

theorem goParse_fuel : ∀ (f1 f2 : Nat) (lines : List Str) (b e : Bool)
    (env : EnvT) (forest : List Elem) (stack : List StackE),
    lines.length ≤ f1 → lines.length ≤ f2 →
    goParse f1 lines b e env forest stack = goParse f2 lines b e env forest stack := by
  intro f1
  induction f1 with
  | zero =>
    intro f2 lines b e env forest stack h1 _
    have : lines = [] := List.eq_nil_of_length_eq_zero (Nat.le_zero.mp h1)
    subst this
    cases f2 <;> rfl
  | succ f1 ih =>
    intro f2 lines b e env forest stack h1 h2
    cases lines with
    | nil => cases f2 <;> rfl
    | cons raw rest =>
      cases f2 with
      | zero => simp at h2
      | succ f2 =>
        have hr1 : rest.length ≤ f1 := by simp at h1; omega
        have hr2 : rest.length ≤ f2 := by simp at h2; omega
        have hs1 : (collectSpan (trimSpace raw) rest).2.length ≤ f1 :=
          le_trans (collectSpan_rem_len _ _) hr1
        have hs2 : (collectSpan (trimSpace raw) rest).2.length ≤ f2 :=
          le_trans (collectSpan_rem_len _ _) hr2
        unfold goParse
        dsimp only []
        split
        · exact ih f2 rest _ _ _ _ _ hr1 hr2
        · split
          · exact ih f2 rest _ _ _ _ _ hr1 hr2
          · split
            · exact ih f2 rest _ _ _ _ _ hr1 hr2
            · split
              · exact ih f2 rest _ _ _ _ _ hr1 hr2
              · split
                · exact ih f2 rest _ _ _ _ _ hr1 hr2
                · split
                  · split
                    · rfl
                    · exact ih f2 _ _ _ _ _ _ hs1 hs2
                  · exact ih f2 rest _ _ _ _ _ hr1 hr2
